import Mathlib

/-!
Verification of the MCTS engine in src/mcts.rs and its two game
collaborators (src/ttt.rs, src/connect4.rs).

Modelling conventions, kept uniform through the file:
* Rust's `HashMap<K, V>` fields (`results`, `action_probs`) are modelled as
  association lists `List (K × V)`; `entry(k).or_insert(0) += 1` becomes
  `incr`, `get(&k)` becomes `lookup`.  The games never produce duplicate
  keys, so first-match lookup agrees with `HashMap` semantics.
* `f64` values the code merely combines arithmetically (the UCT score, with
  its `ln` and `sqrt`) are modelled over `ℝ`; `f64` values the code
  branches on (policy priors compared against `1e-6`, the rollout weight-sum
  assertion) are modelled exactly over `ℚ` so the definitions stay
  executable.
* The `Rc`/`Weak`/`RefCell` tree is modelled as a purely functional
  `Tree`; a node's `parent` pointer is implicit in the tree shape, and a
  position in the tree is addressed by the list of child indices from the
  root (a "path").  Walking parent pointers from a leaf corresponds to
  walking a path back toward the root.
* Randomness (`WeightedIndex::sample` in `rollout`) and the real-valued
  argmax in `best_child` are not computable; they are abstracted as oracle
  parameters (`pick`, `choose`).  Every theorem quantifies over all oracles,
  so it holds in particular for the concrete sampler and argmax.
* `while` loops whose termination depends on the game (`rollout`,
  `select_node`) take an explicit fuel parameter and return an error when
  it runs out; panics (`assert!`, `expect`) are modelled as error values.
-/

namespace MCTS

/-- Model of `HashMap::get(&k).copied()` on an association list:
value of the first entry with the given key. -/
def lookup {K V : Type} [DecidableEq K] : List (K × V) → K → Option V
  | [], _ => none
  | (k, v) :: rest, key => if k = key then some v else lookup rest key

/-- Model of `*map.entry(k).or_insert(0) += 1` (src/mcts.rs line 137):
increment the first entry with the given key, or append a fresh entry
with value 1. -/
def incr : List (Int × Nat) → Int → List (Int × Nat)
  | [], key => [(key, 1)]
  | (k, v) :: rest, key =>
      if k = key then (k, v + 1) :: rest else (k, v) :: incr rest key

/-- Count stored for a key, 0 when absent: model of
`*self.results.get(&k).unwrap_or(&0)` (src/mcts.rs line 47). -/
def getCount (m : List (Int × Nat)) (key : Int) : Nat :=
  (lookup m key).getD 0

/-- Sum of the values of the map (`result_counts.values().sum()`). -/
def sumValues (m : List (Int × Nat)) : Nat :=
  (m.map Prod.snd).sum

/-- Replace the element at an index by applying a function; out-of-range
indices leave the list unchanged.  Used to rebuild a node's `children`
vector after mutating one child. -/
def modifyAt {α : Type} (f : α → α) : Nat → List α → List α
  | _, [] => []
  | 0, a :: l => f a :: l
  | n + 1, a :: l => a :: modifyAt f n l

/-- Model of `f64::abs` on the exact rationals standing in for `f64`. -/
def ratAbs (x : ℚ) : ℚ :=
  if x < 0 then -x else x

/-- The `GameState` trait of src/mcts.rs lines 9-18.  `Action` is the
associated type (Rust requires `Eq + Hash + Copy`, hence
`DecidableEq A`).  Policies are `ℚ`-valued models of the `f64` vector. -/
structure GameState (S A : Type) where
  is_terminal : S → Bool
  get_player_turn : S → Int
  get_legal_actions : S → List A
  get_policy : S → List A → List ℚ
  get_next_state : S → A → S
  get_result : S → Int

/-- The mutable statistics of a node: `visit_count` and `results`
(src/mcts.rs lines 25-26).  Counts are `i32` in Rust but only ever
incremented from 0, hence `Nat`. -/
structure NodeData where
  visit_count : Nat
  results : List (Int × Nat)
deriving DecidableEq, Repr

/-- The search tree of `Node<State>` (src/mcts.rs lines 20-28): `state`,
`parent_action`, the statistics, `action_probs`, and the owned
`children`.  The `parent` weak pointer is implicit in the tree shape. -/
inductive Tree (S A : Type) : Type
  | node (state : S) (parent_action : Option A) (data : NodeData)
      (action_probs : List (A × ℚ)) (children : List (Tree S A))

/-- `Node::new` (src/mcts.rs lines 31-44): zero statistics, empty
children, `action_probs` zipped from the state's legal actions and its
policy over them. -/
def newNode {S A : Type} (g : GameState S A) (state : S) (pa : Option A) :
    Tree S A :=
  let actions := g.get_legal_actions state
  let weights := g.get_policy state actions
  .node state pa ⟨0, []⟩ (actions.zip weights) []

/-- One backpropagation step at one node (src/mcts.rs lines 136-137):
increment `visit_count` and the `results` entry for the propagated
result. -/
def record (d : NodeData) (result : Int) : NodeData :=
  ⟨d.visit_count + 1, incr d.results result⟩

def stateOf {S A : Type} : Tree S A → S
  | .node st _ _ _ _ => st

def parentActionOf {S A : Type} : Tree S A → Option A
  | .node _ pa _ _ _ => pa

def dataOf {S A : Type} : Tree S A → NodeData
  | .node _ _ d _ _ => d

def probsOf {S A : Type} : Tree S A → List (A × ℚ)
  | .node _ _ _ probs _ => probs

def childrenOf {S A : Type} : Tree S A → List (Tree S A)
  | .node _ _ _ _ cs => cs

def rootVisit {S A : Type} (t : Tree S A) : Nat :=
  (dataOf t).visit_count

/-- Follow a path of child indices down from the root. -/
def nodeAt {S A : Type} : Tree S A → List Nat → Option (Tree S A)
  | t, [] => some t
  | .node _ _ _ _ cs, i :: p =>
      match cs[i]? with
      | some c => nodeAt c p
      | none => none

def dataAt {S A : Type} (t : Tree S A) (p : List Nat) : Option NodeData :=
  (nodeAt t p).map dataOf

/-- Top-down form of the backpropagation loop body (src/mcts.rs lines
134-144): the node at the head of the path records `s`, and the walk
continues into the addressed child with the sign flipped
(`current_result *= -1`, line 139: adjacent tree levels see opposite
perspectives). -/
def backpropDown {S A : Type} : Tree S A → List Nat → Int → Tree S A
  | .node st pa d probs cs, [], s => .node st pa (record d s) probs cs
  | .node st pa d probs cs, i :: p, s =>
      .node st pa (record d s) probs
        (modifyAt (fun c => backpropDown c p (-s)) i cs)

/-- `Node::backpropagate` (src/mcts.rs lines 130-145) on the path from the
root to the leaf, with `result` the value observed at the leaf.  The code
walks leaf-to-root flipping the sign once per level, so the root — at
distance `p.length` from the leaf — records `(-1) ^ p.length * result`;
`backpropDown` then re-flips once per level on the way down, making the
leaf record `result` itself, exactly as the loop does. -/
def backpropagate {S A : Type} (t : Tree S A) (p : List Nat) (result : Int) :
    Tree S A :=
  backpropDown t p ((-1 : Int) ^ p.length * result)

/-- The two assertions guarding `Node::expand` (src/mcts.rs lines 95-96),
in the order the code checks them. -/
inductive ExpandErr : Type
  | terminalExpansion
  | reExpansion
deriving DecidableEq, Repr

/-- `Node::expand` (src/mcts.rs lines 93-108).  The two `assert!` calls
become the two error values; otherwise, for each legal action of the
node's state, when `action_probs` holds a prior above `1e-6` a fresh child
is pushed, built by `Node::new` from the successor state with the action
recorded as its `parent_action`. -/
def expand {S A : Type} [DecidableEq A] (g : GameState S A) :
    Tree S A → Except ExpandErr (Tree S A)
  | .node st pa d probs cs =>
      if g.is_terminal st then .error .terminalExpansion
      else if cs.isEmpty = false then .error .reExpansion
      else
        .ok (.node st pa d probs
          ((g.get_legal_actions st).filterMap (fun a =>
            match lookup probs a with
            | some prob =>
                if (1e-6 : ℚ) < prob then
                  some (newNode g (g.get_next_state st a) (some a))
                else none
            | none => none)))

/-- The ways the modelled rollout loop can stop without producing a
terminal state: the weight-sum `assert!` (src/mcts.rs line 118) fires, the
sampled index is out of range (unreachable for the real sampler), or the
fuel runs out. -/
inductive RollErr : Type
  | assertFail
  | badIndex
  | outOfFuel
deriving DecidableEq, Repr

/-- The `while` loop of `Node::rollout` (src/mcts.rs lines 113-123),
instrumented to return the terminal state it reaches.  `pick` abstracts
`WeightedIndex::sample`: it yields the index chosen for the current
state. -/
def rolloutTerminal {S A : Type} (g : GameState S A) (pick : S → Nat) :
    Nat → S → Except RollErr S
  | 0, _ => .error .outOfFuel
  | fuel + 1, s =>
      if g.is_terminal s then .ok s
      else
        let actions := g.get_legal_actions s
        let weights := g.get_policy s actions
        if ratAbs (weights.sum - 1) < (1e-6 : ℚ) then
          match actions[pick s]? with
          | some a => rolloutTerminal g pick fuel (g.get_next_state s a)
          | none => .error .badIndex
        else .error .assertFail

/-- `Node::rollout` (src/mcts.rs lines 112-126) called on a node holding
state `leaf`: run the loop from `leaf`, then report the terminal result
from the leaf's perspective (line 125: negate unless the terminal state's
player to move equals the leaf's). -/
def rolloutValue {S A : Type} (g : GameState S A) (pick : S → Nat)
    (leaf : S) : Nat → S → Except RollErr Int
  | 0, _ => .error .outOfFuel
  | fuel + 1, s =>
      if g.is_terminal s then
        .ok (if g.get_player_turn leaf = g.get_player_turn s then
               g.get_result s
             else -g.get_result s)
      else
        let actions := g.get_legal_actions s
        let weights := g.get_policy s actions
        if ratAbs (weights.sum - 1) < (1e-6 : ℚ) then
          match actions[pick s]? with
          | some a => rolloutValue g pick leaf fuel (g.get_next_state s a)
          | none => .error .badIndex
        else .error .assertFail

/-- `Node::rollout` entry point: the loop starts at the node's own state
(`current_state = self.state.clone()`, line 113). -/
def rollout {S A : Type} (g : GameState S A) (pick : S → Nat) (fuel : Nat)
    (leaf : S) : Except RollErr Int :=
  rolloutValue g pick leaf fuel leaf

/-- `Node::select_node` (src/mcts.rs lines 56-70), instrumented to return
the updated tree together with the path to the selected node.  `choose`
abstracts `best_child` (lines 72-78), the argmax of the real-valued UCT
scores, which is not computable; it receives the children list and must
name a child index.  `best_child` on an empty children list panics
("Unable to find best child node"), modelled as `none`; an out-of-range
oracle answer (impossible for the real argmax) is also `none`.  The loop
descends one level per iteration, so the fuel bounds the depth
explored. -/
def selectExpand {S A : Type} [DecidableEq A] (g : GameState S A)
    (choose : List (Tree S A) → Nat) :
    Nat → Tree S A → Option (Tree S A × List Nat)
  | 0, _ => none
  | fuel + 1, t =>
      if g.is_terminal (stateOf t) then some (t, [])
      else if (childrenOf t).isEmpty then
        match expand g t with
        | .error _ => none
        | .ok t2 =>
            let i := choose (childrenOf t2)
            if i < (childrenOf t2).length then some (t2, [i]) else none
      else
        match t with
        | .node st pa d probs cs =>
            let i := choose cs
            match cs[i]? with
            | none => none
            | some c =>
                match selectExpand g choose fuel c with
                | none => none
                | some (c2, p) =>
                    some (.node st pa d probs (modifyAt (fun _ => c2) i cs),
                          i :: p)

/-- One iteration of the simulation loop in `Node::best_action`
(src/mcts.rs lines 150-154): select (expanding at the frontier), roll out
from the selected leaf's state, backpropagate the result along the path
from the leaf to the root. -/
def simPass {S A : Type} [DecidableEq A] (g : GameState S A)
    (choose : List (Tree S A) → Nat) (pick : S → Nat)
    (selFuel rollFuel : Nat) (t : Tree S A) : Option (Tree S A) :=
  match selectExpand g choose selFuel t with
  | none => none
  | some (t2, p) =>
      match nodeAt t2 p with
      | none => none
      | some leaf =>
          match rollout g pick rollFuel (stateOf leaf) with
          | .error _ => none
          | .ok r => some (backpropagate t2 p r)

/-- The `for _ in 0..n_simulations` loop of `Node::best_action`
(src/mcts.rs lines 150-154), returning the tree after `n` passes. -/
def bestActionTree {S A : Type} [DecidableEq A] (g : GameState S A)
    (choose : List (Tree S A) → Nat) (pick : S → Nat)
    (selFuel rollFuel : Nat) : Nat → Tree S A → Option (Tree S A)
  | 0, t => some t
  | n + 1, t =>
      match simPass g choose pick selFuel rollFuel t with
      | none => none
      | some t2 => bestActionTree g choose pick selFuel rollFuel n t2

/-- `max_by_key` over visit counts (src/mcts.rs line 157): Rust's
`max_by_key` returns the last maximal element, hence the `≤` in the
fold. -/
def maxByVisit {S A : Type} : List (Tree S A) → Option (Tree S A) :=
  List.foldl
    (fun acc c =>
      match acc with
      | none => some c
      | some b => if rootVisit b ≤ rootVisit c then some c else some b)
    none

/-- `Node::best_action` (src/mcts.rs lines 149-159): run the simulation
loop, then return the `parent_action` of the most-visited immediate child
(and, the tree being threaded explicitly here, the final tree). -/
def best_action {S A : Type} [DecidableEq A] (g : GameState S A)
    (choose : List (Tree S A) → Nat) (pick : S → Nat)
    (selFuel rollFuel : Nat) (t : Tree S A) (n : Nat) :
    Option (A × Tree S A) :=
  match bestActionTree g choose pick selFuel rollFuel n t with
  | none => none
  | some t2 =>
      match maxByVisit (childrenOf t2) with
      | none => none
      | some c =>
          match parentActionOf c with
          | none => none
          | some a => some (a, t2)

/-- The per-node invariant: `visit_count` equals the sum of the
`result_counts` values. -/
def statInvB (d : NodeData) : Bool :=
  d.visit_count = sumValues d.results

mutual

/-- `statInvB` at every node of the tree. -/
def treeInvB {S A : Type} : Tree S A → Bool
  | .node _ _ d _ cs => statInvB d && treeInvListB cs

def treeInvListB {S A : Type} : List (Tree S A) → Bool
  | [] => true
  | c :: cs => treeInvB c && treeInvListB cs

end

/-- `Node::q` (src/mcts.rs lines 46-48) with `f64` modelled over `ℝ`:
`(results[+1] - results[-1]) / visit_count` when visited, else `-1`. -/
noncomputable def q (d : NodeData) : ℝ :=
  if 0 < d.visit_count then
    ((getCount d.results 1 : ℝ) - (getCount d.results (-1) : ℝ)) /
      (d.visit_count : ℝ)
  else -1

/-- The `value_score` line of `Node::uct_score` (src/mcts.rs line 89). -/
noncomputable def value_score (d : NodeData) : ℝ :=
  (-q d + 1) / 2

/-- `Node::uct_score` (src/mcts.rs lines 80-91) with `f64` over `ℝ`.
`node_visit` is the parent's visit count, `parentProbs` the parent's
`action_probs` map and `pa` this child's `parent_action`, from which
`action_prob` is resolved exactly as lines 81-83 do (missing entry
defaults to 0; both exist for every child the engine ever scores). -/
noncomputable def uct_score {A : Type} [DecidableEq A] (d : NodeData)
    (parentProbs : List (A × ℚ)) (pa : A) (node_visit : Nat) : ℝ :=
  let action_prob : ℝ := (((lookup parentProbs pa).getD 0 : ℚ) : ℝ)
  let pb_c_init : ℝ := 1.25
  let pb_c_base : ℝ := 19652
  let pb_c : ℝ := pb_c_init + Real.log (((node_visit : ℝ) + pb_c_base + 1) / pb_c_base)
  let policy_score : ℝ := Real.sqrt (node_visit : ℝ) * pb_c * action_prob / ((d.visit_count : ℝ) + 1)
  value_score d + policy_score

/-- The PUCT selection formula exactly as the specification states it, for
comparison with `uct_score`: Q from the win counts (else -1), the
`pb_c` logarithm, the prior-weighted policy score, and the value score. -/
noncomputable def puct_spec (d : NodeData) (N : Nat) (prior : ℝ) : ℝ :=
  let Q : ℝ :=
    if 0 < d.visit_count then
      ((getCount d.results 1 : ℝ) - (getCount d.results (-1) : ℝ)) /
        (d.visit_count : ℝ)
    else -1
  let pb_c : ℝ := 1.25 + Real.log (((N : ℝ) + 19652 + 1) / 19652)
  let policy_score : ℝ := Real.sqrt (N : ℝ) * pb_c * prior / ((d.visit_count : ℝ) + 1)
  let vs : ℝ := (-Q + 1) / 2
  vs + policy_score

end MCTS

namespace TTT

/-- The tic-tac-toe `State` of src/ttt.rs lines 12-16: a 3x3 board of
chars (space, X or O) and the player to move. -/
structure State where
  board : List (List Char)
  player : Char
deriving DecidableEq, Repr

/-- `State::new` (src/ttt.rs lines 19-24). -/
def new : State :=
  ⟨List.replicate 3 (List.replicate 3 ' '), 'X'⟩

/-- Board access `self.board[i][j]`; in-range for every index the code
uses, out-of-range modelled as a space. -/
def cell (s : State) (i j : Nat) : Char :=
  ((s.board.getD i []).getD j ' ')

/-- One three-in-a-row test as written in `get_result`: the three cells
are equal and the first is not a space. -/
def lineEq (a b c : Char) : Bool :=
  a = b && b = c && a ≠ ' '

/-- `State::get_result` (src/ttt.rs lines 71-86): `-1` as soon as any row,
column or diagonal holds three equal non-space marks, else 0. -/
def get_result (s : State) : Int :=
  if ((List.range 3).any fun i =>
        lineEq (cell s i 0) (cell s i 1) (cell s i 2) ||
        lineEq (cell s 0 i) (cell s 1 i) (cell s 2 i)) ||
      lineEq (cell s 0 0) (cell s 1 1) (cell s 2 2) ||
      lineEq (cell s 0 2) (cell s 1 1) (cell s 2 0)
  then -1 else 0

/-- `State::is_terminal` (src/ttt.rs lines 30-32). -/
def is_terminal (s : State) : Bool :=
  get_result s ≠ 0 || s.board.all (fun row => row.all (fun c => c ≠ ' '))

/-- `State::get_player_turn` (src/ttt.rs lines 34-40); other chars are
unreachable in the program, mapped to 0 here. -/
def get_player_turn (s : State) : Int :=
  if s.player = 'X' then 1 else if s.player = 'O' then -1 else 0

/-- `State::get_legal_actions` (src/ttt.rs lines 42-54): the coordinates
of the empty cells, rows outermost, in board order. -/
def get_legal_actions (s : State) : List (Nat × Nat) :=
  s.board.enum.flatMap fun ir =>
    ir.2.enum.filterMap fun jc =>
      if jc.2 = ' ' then some (ir.1, jc.1) else none

/-- `State::get_policy` (src/ttt.rs lines 56-58): the uniform
distribution over the given actions. -/
def get_policy (_s : State) (actions : List (Nat × Nat)) : List ℚ :=
  List.replicate actions.length (1 / (actions.length : ℚ))

/-- `State::get_next_state` (src/ttt.rs lines 60-69): write the current
player's mark and flip the player. -/
def get_next_state (s : State) (a : Nat × Nat) : State :=
  ⟨MCTS.modifyAt (fun row => row.set a.2 s.player) a.1 s.board,
   if s.player = 'X' then 'O' else 'X'⟩

/-- The `GameState` instance of src/ttt.rs lines 27-87 bundled for the
engine. -/
def game : MCTS.GameState State (Nat × Nat) :=
  ⟨is_terminal, get_player_turn, get_legal_actions, get_policy,
   get_next_state, get_result⟩

/-- The eight winning lines of the 3x3 board. -/
def lines : List (List (Nat × Nat)) :=
  [[(0, 0), (0, 1), (0, 2)], [(1, 0), (1, 1), (1, 2)],
   [(2, 0), (2, 1), (2, 2)], [(0, 0), (1, 0), (2, 0)],
   [(0, 1), (1, 1), (2, 1)], [(0, 2), (1, 2), (2, 2)],
   [(0, 0), (1, 1), (2, 2)], [(0, 2), (1, 1), (2, 0)]]

/-- The three cells cover some winning line. -/
def completesLine (a b c : Nat × Nat) : Bool :=
  lines.any fun l => l.all fun x => x = a || x = b || x = c

/-- All five cells distinct. -/
def distinct5 (a1 a2 a3 a4 a5 : Nat × Nat) : Bool :=
  a1 ≠ a2 && a1 ≠ a3 && a1 ≠ a4 && a1 ≠ a5 &&
  a2 ≠ a3 && a2 ≠ a4 && a2 ≠ a5 &&
  a3 ≠ a4 && a3 ≠ a5 && a4 ≠ a5

/-- Play a list of actions from a state with `get_next_state`. -/
def playAll (s : State) (moves : List (Nat × Nat)) : State :=
  moves.foldl get_next_state s

end TTT

namespace Connect4

/-- The Connect-4 `State` of src/connect4.rs lines 12-16: a 6-row x
7-column board of chars, row 0 the bottom, and the player to move. -/
structure State where
  board : List (List Char)
  player : Char
deriving DecidableEq, Repr

/-- `State::new` (src/connect4.rs lines 19-24). -/
def new : State :=
  ⟨List.replicate 6 (List.replicate 7 ' '), 'X'⟩

/-- `State::get_top_row` (src/connect4.rs lines 26-28): the index of the
first (lowest) row whose cell in the column is empty; `none` when the
column is full.  Out-of-range columns read as non-space, as `row[col]`
would never be consulted for them in the program. -/
def get_top_row (s : State) (col : Nat) : Option Nat :=
  s.board.findIdx? fun row => row.getD col '#' = ' '

/-- `State::get_next_state` (src/connect4.rs lines 72-82): drop the
current player's piece into the column when it has room (`if let
Some(row)`), leave the board untouched otherwise, and flip the player
either way. -/
def get_next_state (s : State) (action : Nat) : State :=
  let next_board :=
    match get_top_row s action with
    | some row => MCTS.modifyAt (fun r => r.set action s.player) row s.board
    | none => s.board
  ⟨next_board, if s.player = 'X' then 'O' else 'X'⟩

/-- `State::get_legal_actions` (src/connect4.rs lines 46-50): the columns
whose top (index 5) cell is empty. -/
def get_legal_actions (s : State) : List Nat :=
  (List.range (s.board.getD 0 []).length).filter fun col =>
    (s.board.getD 5 []).getD col '#' = ' '

end Connect4

namespace CountdownGame

/-- A minimal concrete game used to instantiate the engine theorems'
witnesses: states are counters, the single action decrements, the game
ends at 0, every result is a draw. -/
def game : MCTS.GameState Nat Unit :=
  { is_terminal := fun s => s = 0
    get_player_turn := fun _ => 1
    get_legal_actions := fun _ => [()]
    get_policy := fun _ actions => List.replicate actions.length 1
    get_next_state := fun s _ => s - 1
    get_result := fun _ => 0 }

end CountdownGame

namespace Examples

/-- A two-node chain used to instantiate backpropagation theorems on a
concrete input. -/
def chain2 : MCTS.Tree Nat Unit :=
  .node 5 none ⟨0, []⟩ [] [.node 4 (some ()) ⟨0, []⟩ [] []]

/-- A Connect-4 position whose column 0 is completely filled. -/
def fullColumn : Connect4.State :=
  ⟨[['X', ' ', ' ', ' ', ' ', ' ', ' '],
    ['O', ' ', ' ', ' ', ' ', ' ', ' '],
    ['X', ' ', ' ', ' ', ' ', ' ', ' '],
    ['O', ' ', ' ', ' ', ' ', ' ', ' '],
    ['X', ' ', ' ', ' ', ' ', ' ', ' '],
    ['O', ' ', ' ', ' ', ' ', ' ', ' ']], 'X'⟩

/-- The countdown game with a malformed policy (weights summing to 2),
used to exercise the rollout weight-sum assertion. -/
def badPolicy : MCTS.GameState Nat Unit :=
  { CountdownGame.game with
      get_policy := fun _ actions => List.replicate actions.length 2 }

end Examples

/-! ## Helper lemmas -/

open MCTS

variable {S A : Type}

theorem sumValues_incr (m : List (Int × Nat)) (k : Int) :
    sumValues (incr m k) = sumValues m + 1 := by
  induction m with
  | nil => simp [incr, sumValues]
  | cons hd tl ih =>
      obtain ⟨k2, v⟩ := hd
      by_cases h : k2 = k
      · simp only [incr, if_pos h, sumValues, List.map_cons, List.sum_cons]
        omega
      · simp only [incr, if_neg h, sumValues, List.map_cons, List.sum_cons]
        have := ih
        simp only [sumValues] at this
        omega

theorem statInvB_record {d : NodeData} (h : statInvB d = true) (r : Int) :
    statInvB (record d r) = true := by
  simp only [statInvB, record, decide_eq_true_eq] at h ⊢
  rw [sumValues_incr, h]

theorem treeInvListB_modifyAt {f : Tree S A → Tree S A}
    (hf : ∀ c, treeInvB c = true → treeInvB (f c) = true) :
    ∀ (i : Nat) (cs : List (Tree S A)), treeInvListB cs = true →
      treeInvListB (modifyAt f i cs) = true := by
  intro i
  induction i with
  | zero =>
      intro cs h
      cases cs with
      | nil => simpa [modifyAt] using h
      | cons c rest =>
          simp only [treeInvListB, Bool.and_eq_true] at h
          simp [modifyAt, treeInvListB, hf c h.1, h.2]
  | succ n ih =>
      intro cs h
      cases cs with
      | nil => simpa [modifyAt] using h
      | cons c rest =>
          simp only [treeInvListB, Bool.and_eq_true] at h
          simp [modifyAt, treeInvListB, h.1, ih rest h.2]

theorem treeInvB_backpropDown (p : List Nat) :
    ∀ (t : Tree S A) (s : Int), treeInvB t = true →
      treeInvB (backpropDown t p s) = true := by
  induction p with
  | nil =>
      intro t s h
      cases t with
      | node st pa d probs cs =>
          simp only [treeInvB, Bool.and_eq_true] at h
          simp [backpropDown, treeInvB, statInvB_record h.1, h.2]
  | cons i p2 ih =>
      intro t s h
      cases t with
      | node st pa d probs cs =>
          simp only [treeInvB, Bool.and_eq_true] at h
          simp [backpropDown, treeInvB, statInvB_record h.1,
            treeInvListB_modifyAt (fun c hc => ih c (-s) hc) i cs h.2]

theorem treeInvB_newNode (g : GameState S A) (st : S) (pa : Option A) :
    treeInvB (newNode g st pa) = true := by
  simp [newNode, treeInvB, treeInvListB, statInvB, sumValues]

theorem modifyAt_getElem_self {α : Type} (f : α → α) :
    ∀ (i : Nat) (l : List α), (modifyAt f i l)[i]? = (l[i]?).map f := by
  intro i
  induction i with
  | zero =>
      intro l
      cases l <;> simp [modifyAt]
  | succ n ih =>
      intro l
      cases l with
      | nil => simp [modifyAt]
      | cons a rest => simpa [modifyAt] using ih rest

theorem dataAt_backpropDown (p : List Nat) :
    ∀ (t : Tree S A) (s : Int) (j : Nat), j ≤ p.length →
      dataAt (backpropDown t p s) (p.take j) =
        (dataAt t (p.take j)).map (fun d => record d (s * (-1) ^ j)) := by
  induction p with
  | nil =>
      intro t s j hj
      have hj0 : j = 0 := by simpa using hj
      subst hj0
      cases t with
      | node st pa d probs cs => simp [backpropDown, dataAt, nodeAt, dataOf]
  | cons i p2 ih =>
      intro t s j hj
      cases t with
      | node st pa d probs cs =>
          cases j with
          | zero => simp [backpropDown, dataAt, nodeAt, dataOf]
          | succ j2 =>
              simp only [List.take_succ_cons]
              simp only [backpropDown, dataAt, nodeAt]
              rw [modifyAt_getElem_self]
              cases hc : cs[i]? with
              | none => simp
              | some c =>
                  have hj2 : j2 ≤ p2.length := by
                    simpa [Nat.succ_le_succ_iff] using hj
                  have h2 := ih c (-s) j2 hj2
                  simp only [dataAt] at h2
                  show Option.map dataOf
                      (nodeAt (backpropDown c p2 (-s)) (List.take j2 p2)) =
                    Option.map (fun d => record d (s * (-1) ^ (j2 + 1)))
                      (Option.map dataOf (nodeAt c (List.take j2 p2)))
                  rw [h2]
                  have hsign : -s * (-1 : Int) ^ j2 = s * (-1) ^ (j2 + 1) := by
                    ring
                  rw [hsign]

theorem rootVisit_backpropDown (t : Tree S A) (p : List Nat) (s : Int) :
    rootVisit (backpropDown t p s) = rootVisit t + 1 := by
  cases t with
  | node st pa d probs cs =>
      cases p <;> simp [backpropDown, rootVisit, dataOf, record]

theorem rootVisit_backpropagate (t : Tree S A) (p : List Nat) (r : Int) :
    rootVisit (backpropagate t p r) = rootVisit t + 1 :=
  rootVisit_backpropDown t p _

theorem dataOf_expand [DecidableEq A] {g : GameState S A} {t t2 : Tree S A}
    (h : expand g t = .ok t2) : dataOf t2 = dataOf t := by
  cases t with
  | node st pa d probs cs =>
      simp only [expand] at h
      split at h
      · exact absurd h (by simp)
      · split at h
        · exact absurd h (by simp)
        · simp only [Except.ok.injEq] at h
          rw [← h]
          rfl

theorem dataOf_selectExpand [DecidableEq A] {g : GameState S A}
    {choose : List (Tree S A) → Nat} :
    ∀ (fuel : Nat) (t t2 : Tree S A) (p : List Nat),
      selectExpand g choose fuel t = some (t2, p) → dataOf t2 = dataOf t := by
  intro fuel
  induction fuel with
  | zero =>
      intro t t2 p h
      simp [selectExpand] at h
  | succ n ih =>
      intro t t2 p h
      cases t with
      | node st pa d probs cs =>
          simp only [selectExpand] at h
          split at h
          · simp only [Option.some.injEq, Prod.mk.injEq] at h
            rw [← h.1]
          · split at h
            · cases hex : expand g (.node st pa d probs cs) with
              | error e => rw [hex] at h; simp at h
              | ok t3 =>
                  rw [hex] at h
                  simp only at h
                  split at h
                  · simp only [Option.some.injEq, Prod.mk.injEq] at h
                    rw [← h.1]
                    exact dataOf_expand hex
                  · simp at h
            · cases hc : cs[choose cs]? with
              | none => rw [hc] at h; simp at h
              | some c =>
                  rw [hc] at h
                  simp only at h
                  cases hrec : selectExpand g choose n c with
                  | none => rw [hrec] at h; simp at h
                  | some pr =>
                      rw [hrec] at h
                      simp only [Option.some.injEq, Prod.mk.injEq] at h
                      rw [← h.1]
                      rfl

theorem rootVisit_simPass [DecidableEq A] {g : GameState S A}
    {choose : List (Tree S A) → Nat} {pick : S → Nat}
    {selFuel rollFuel : Nat} {t t2 : Tree S A}
    (h : simPass g choose pick selFuel rollFuel t = some t2) :
    rootVisit t2 = rootVisit t + 1 := by
  simp only [simPass] at h
  cases hsel : selectExpand g choose selFuel t with
  | none => rw [hsel] at h; simp at h
  | some pr =>
      obtain ⟨t3, p⟩ := pr
      rw [hsel] at h
      simp only at h
      cases hn : nodeAt t3 p with
      | none => rw [hn] at h; simp at h
      | some leaf =>
          rw [hn] at h
          simp only at h
          cases hr : rollout g pick rollFuel (stateOf leaf) with
          | error e => rw [hr] at h; simp at h
          | ok r =>
              rw [hr] at h
              simp only [Option.some.injEq] at h
              rw [← h, rootVisit_backpropagate]
              have := dataOf_selectExpand selFuel t t3 p hsel
              simp only [rootVisit, this]

theorem rootVisit_bestActionTree [DecidableEq A] {g : GameState S A}
    {choose : List (Tree S A) → Nat} {pick : S → Nat}
    {selFuel rollFuel : Nat} :
    ∀ (n : Nat) (t t2 : Tree S A),
      bestActionTree g choose pick selFuel rollFuel n t = some t2 →
      rootVisit t2 = rootVisit t + n := by
  intro n
  induction n with
  | zero =>
      intro t t2 h
      simp only [bestActionTree, Option.some.injEq] at h
      rw [← h]
      omega
  | succ m ih =>
      intro t t2 h
      simp only [bestActionTree] at h
      cases hp : simPass g choose pick selFuel rollFuel t with
      | none => rw [hp] at h; simp at h
      | some t3 =>
          rw [hp] at h
          have h3 := ih t3 t2 h
          rw [h3, rootVisit_simPass hp]
          omega

/-! ## Claim theorems -/

/-- C1: for a fresh (zero-visit) non-terminal root and any simulation
budget of at least 1, whenever `best_action` returns — for every
child-choice oracle, every rollout sampler and any fuel — the root's
visit count in the resulting tree is exactly `n`: each of the `n`
simulation passes increments the root's visit count exactly once during
backpropagation. -/
theorem best_action_root_visit_count [DecidableEq A] (g : GameState S A)
    (choose : List (Tree S A) → Nat) (pick : S → Nat)
    (selFuel rollFuel : Nat) (t : Tree S A) (n : Nat) (res : A × Tree S A)
    (hroot : rootVisit t = 0)
    (hterm : g.is_terminal (stateOf t) = false)
    (hn : 1 ≤ n)
    (h : best_action g choose pick selFuel rollFuel t n = some res) :
    rootVisit res.2 = n := by
  simp only [best_action] at h
  cases hbt : bestActionTree g choose pick selFuel rollFuel n t with
  | none => rw [hbt] at h; simp at h
  | some t2 =>
      rw [hbt] at h
      simp only at h
      cases hmv : maxByVisit (childrenOf t2) with
      | none => rw [hmv] at h; simp at h
      | some c =>
          rw [hmv] at h
          simp only at h
          cases hpa : parentActionOf c with
          | none => rw [hpa] at h; simp at h
          | some a =>
              rw [hpa] at h
              simp only [Option.some.injEq] at h
              have h2 := rootVisit_bestActionTree n t t2 hbt
              rw [← h]
              simpa [hroot] using h2

attribute [local semireducible] Rat.add Rat.sub Rat.mul Rat.inv
  Rat.ofScientific in
/-- Witness for C1: the countdown game, root state 2, two simulations.
The core rational operations are irreducible by default and are made
semireducible locally so the engine run evaluates definitionally. -/
theorem best_action_root_visit_count_witness :
    rootVisit ((best_action CountdownGame.game (fun _ => 0) (fun _ => 0)
        10 10 (newNode CountdownGame.game 2 none) 2).getD
      ((), newNode CountdownGame.game 2 none)).2 = 2 :=
  best_action_root_visit_count CountdownGame.game (fun _ => 0) (fun _ => 0)
    10 10 (newNode CountdownGame.game 2 none) 2
    ((best_action CountdownGame.game (fun _ => 0) (fun _ => 0)
        10 10 (newNode CountdownGame.game 2 none) 2).getD
      ((), newNode CountdownGame.game 2 none))
    rfl rfl (by decide) (by rfl)

/-- C2: `visit_count = sum of result_counts values` holds at every node
of a freshly constructed node's (trivial) tree and is preserved at every
node of any tree by any backpropagation, hence by any sequence of
backpropagations: each backpropagation step increments both sides by
exactly 1 at every node it touches. -/
theorem visit_count_eq_sum_result_counts (g : GameState S A) (st : S)
    (pa : Option A) (t : Tree S A) (p : List Nat) (r : Int)
    (h : treeInvB t = true) :
    treeInvB (newNode g st pa) = true ∧
      treeInvB (backpropagate t p r) = true :=
  ⟨treeInvB_newNode g st pa, treeInvB_backpropDown p t _ h⟩

/-- Witness for C2: a concrete two-node chain and one backpropagation. -/
theorem visit_count_eq_sum_result_counts_witness :
    treeInvB (newNode CountdownGame.game 1 none) = true ∧
      treeInvB (backpropagate Examples.chain2 [0] 1) = true :=
  visit_count_eq_sum_result_counts CountdownGame.game 1 none
    Examples.chain2 [0] 1 (by decide)

/-- C3: backpropagation along the root-to-leaf path `p` with leaf result
`r` touches exactly the nodes on the path, inclusively up to the root:
the node at distance `k` from the leaf (prefix of length `p.length - k`)
has its `visit_count` incremented and its `result_counts` entry for
`r * (-1) ^ k` incremented (that is what `record` does); in particular
the leaf (`k = 0`) records `r` itself and the root (`k = p.length`, the
leaf's depth `d`) records `r * (-1) ^ d`. -/
theorem backprop_alternating_signs (t : Tree S A) (p : List Nat) (r : Int)
    (k : Nat) (hk : k ≤ p.length) :
    dataAt (backpropagate t p r) (p.take (p.length - k)) =
      (dataAt t (p.take (p.length - k))).map
        (fun d => record d (r * (-1) ^ k)) := by
  have h := dataAt_backpropDown p t ((-1 : Int) ^ p.length * r)
      (p.length - k) (by omega)
  rw [backpropagate, h]
  have hsign : (-1 : Int) ^ p.length * r * (-1) ^ (p.length - k) =
      r * (-1) ^ k := by
    rw [mul_comm ((-1 : Int) ^ p.length) r, mul_assoc, ← pow_add]
    congr 1
    have h2 : p.length + (p.length - k) = 2 * (p.length - k) + k := by omega
    rw [h2, pow_add, pow_mul]
    norm_num
  rw [hsign]

/-- Witness for C3: the two-node chain, leaf result 1, distance 1 (the
root), which therefore records the flipped result. -/
theorem backprop_alternating_signs_witness :
    dataAt (backpropagate Examples.chain2 [0] 1) [] =
      (dataAt Examples.chain2 []).map (fun d => record d (1 * (-1) ^ 1)) :=
  backprop_alternating_signs Examples.chain2 [0] 1 1 (by decide)

theorem getCount_cons (a : Int) (v : Nat) (tl : List (Int × Nat))
    (k : Int) :
    getCount ((a, v) :: tl) k = if a = k then v else getCount tl k := by
  by_cases h : a = k <;> simp [getCount, lookup, h]

theorem sumValues_cons (a : Int) (v : Nat) (tl : List (Int × Nat)) :
    sumValues ((a, v) :: tl) = v + sumValues tl := by
  simp [sumValues]

theorem getCount_le_sumValues (m : List (Int × Nat)) (k : Int) :
    getCount m k ≤ sumValues m := by
  induction m with
  | nil => simp [getCount, lookup, sumValues]
  | cons hd tl ih =>
      obtain ⟨a, v⟩ := hd
      rw [getCount_cons, sumValues_cons]
      by_cases h : a = k
      · rw [if_pos h]; omega
      · rw [if_neg h]; omega

theorem getCount_pair_le_sumValues (m : List (Int × Nat)) {k k2 : Int}
    (hk : k ≠ k2) : getCount m k + getCount m k2 ≤ sumValues m := by
  induction m with
  | nil => simp [getCount, lookup, sumValues]
  | cons hd tl ih =>
      obtain ⟨a, v⟩ := hd
      rw [getCount_cons, getCount_cons, sumValues_cons]
      have h1 := getCount_le_sumValues tl k
      have h2 := getCount_le_sumValues tl k2
      by_cases ha : a = k
      · have hb : ¬ a = k2 := by rw [ha]; exact hk
        rw [if_pos ha, if_neg hb]
        omega
      · by_cases hb : a = k2
        · rw [if_neg ha, if_pos hb]
          omega
        · rw [if_neg ha, if_neg hb]
          omega

theorem value_score_mem_unit {d : NodeData} (h : statInvB d = true) :
    0 ≤ value_score d ∧ value_score d ≤ 1 := by
  simp only [statInvB, decide_eq_true_eq] at h
  by_cases hv : 0 < d.visit_count
  · have hpair : getCount d.results 1 + getCount d.results (-1) ≤
        d.visit_count := by
      rw [h]
      exact getCount_pair_le_sumValues d.results (by norm_num)
    simp only [value_score, q, if_pos hv]
    have hvR : (0 : ℝ) < (d.visit_count : ℝ) := by exact_mod_cast hv
    have hc1 : (getCount d.results 1 : ℝ) ≤ (d.visit_count : ℝ) := by
      exact_mod_cast le_trans (Nat.le_add_right _ _) hpair
    have hc2 : (getCount d.results (-1) : ℝ) ≤ (d.visit_count : ℝ) := by
      exact_mod_cast le_trans (Nat.le_add_left _ _) hpair
    have hn1 : (0 : ℝ) ≤ (getCount d.results 1 : ℝ) := by positivity
    have hn2 : (0 : ℝ) ≤ (getCount d.results (-1) : ℝ) := by positivity
    have hub : ((getCount d.results 1 : ℝ) - (getCount d.results (-1) : ℝ)) /
        (d.visit_count : ℝ) ≤ 1 := by
      rw [div_le_one hvR]
      linarith
    have hlb : (-1 : ℝ) ≤
        ((getCount d.results 1 : ℝ) - (getCount d.results (-1) : ℝ)) /
          (d.visit_count : ℝ) := by
      rw [le_div_iff hvR]
      linarith
    constructor <;> [linarith; linarith]
  · simp only [value_score, q, if_neg hv]
    norm_num

/-- C4 (amended): an unvisited child has `Q = -1`, so its value score
`(-Q + 1) / 2` equals 1 — which is the most optimistic (maximal), not the
most pessimistic (minimal), value over the attainable range `[0, 1]`:
every statistics record satisfying the visit-count invariant has a value
score between 0 and the unvisited default. -/
theorem unvisited_value_score_maximal (d : NodeData)
    (h : d.visit_count = 0) :
    q d = -1 ∧ value_score d = 1 ∧
      ∀ d2 : NodeData, statInvB d2 = true →
        0 ≤ value_score d2 ∧ value_score d2 ≤ value_score d := by
  have hq : q d = -1 := by simp [q, h]
  have hv : value_score d = 1 := by rw [value_score, hq]; norm_num
  refine ⟨hq, hv, fun d2 h2 => ?_⟩
  have hb := value_score_mem_unit h2
  exact ⟨hb.1, by rw [hv]; exact hb.2⟩

/-- Counterexample for C4 as stated: the unvisited default value score is
1, while the invariant-satisfying statistics `⟨1, [(1, 1)]⟩` (one visit,
one win) attain value score 0; so the unvisited default is not minimal
over the attainable range `[0, 1]` — it is strictly above an attainable
value. -/
theorem unvisited_value_score_not_minimal :
    q ⟨0, []⟩ = -1 ∧ value_score ⟨0, []⟩ = 1 ∧
      statInvB ⟨1, [(1, 1)]⟩ = true ∧ value_score ⟨1, [(1, 1)]⟩ = 0 ∧
      ¬ value_score ⟨0, []⟩ ≤ value_score ⟨1, [(1, 1)]⟩ := by
  have h0 : q (⟨0, []⟩ : NodeData) = -1 := by simp [q]
  have h1 : value_score ⟨0, []⟩ = 1 := by rw [value_score, h0]; norm_num
  have h2 : q (⟨1, [(1, 1)]⟩ : NodeData) = 1 := by
    simp [q, getCount, lookup]
  have h3 : value_score ⟨1, [(1, 1)]⟩ = 0 := by rw [value_score, h2]; norm_num
  refine ⟨h0, h1, by decide, h3, ?_⟩
  rw [h1, h3]
  norm_num

/-- Witness for C4 (amended): the fresh statistics against the record of
two visits, one win and one loss. -/
theorem unvisited_value_score_maximal_witness :
    q ⟨0, []⟩ = -1 ∧ value_score ⟨0, []⟩ = 1 ∧
      (0 ≤ value_score ⟨2, [(1, 1), (-1, 1)]⟩ ∧
        value_score ⟨2, [(1, 1), (-1, 1)]⟩ ≤ value_score ⟨0, []⟩) := by
  have h := unvisited_value_score_maximal ⟨0, []⟩ rfl
  exact ⟨h.1, h.2.1, h.2.2 ⟨2, [(1, 1), (-1, 1)]⟩ (by decide)⟩

/-- C5: the selection score computed by `uct_score` coincides, for every
statistics record, parent visit count and prior resolved as the parent's
`action_probs` entry for the child's `parent_action`, with the PUCT
formula exactly as the specification writes it (`puct_spec`). -/
theorem uct_score_matches_spec {A : Type} [DecidableEq A] (d : NodeData)
    (parentProbs : List (A × ℚ)) (pa : A) (N : Nat) :
    uct_score d parentProbs pa N =
      puct_spec d N (((lookup parentProbs pa).getD 0 : ℚ) : ℝ) := rfl

theorem filterMap_eq_map_filter {α β : Type} (p : α → Bool) (f : α → β)
    (g : α → Option β) (hg : ∀ a, g a = if p a then some (f a) else none) :
    ∀ l : List α, l.filterMap g = (l.filter p).map f := by
  intro l
  induction l with
  | nil => simp
  | cons a rest ih =>
      by_cases hp : p a
      · simp [List.filterMap_cons, hg a, hp, ih]
      · simp [List.filterMap_cons, hg a, hp, ih]

/-- C6: expanding a non-terminal, un-expanded node creates exactly one
child per legal action whose prior in the node's `action_probs` exceeds
`1e-6`, in legal-action order; each child is built from the successor
state of that action, carries it as `parent_action`, starts with zero
statistics and no children, and has its `action_probs` freshly computed
by zipping its own legal actions with its own policy. -/
theorem expand_children_spec [DecidableEq A] (g : GameState S A) (st : S)
    (pa : Option A) (d : NodeData) (probs : List (A × ℚ))
    (hterm : g.is_terminal st = false) :
    expand g (.node st pa d probs []) =
      .ok (.node st pa d probs
        (((g.get_legal_actions st).filter
            (fun a => decide ((1e-6 : ℚ) < (lookup probs a).getD 0))).map
          (fun a => newNode g (g.get_next_state st a) (some a)))) ∧
      ∀ (s2 : S) (a : A),
        stateOf (newNode g s2 (some a)) = s2 ∧
        parentActionOf (newNode g s2 (some a)) = some a ∧
        dataOf (newNode g s2 (some a)) = ⟨0, []⟩ ∧
        childrenOf (newNode g s2 (some a)) = [] ∧
        probsOf (newNode g s2 (some a)) =
          (g.get_legal_actions s2).zip
            (g.get_policy s2 (g.get_legal_actions s2)) := by
  constructor
  · have hg : ∀ a : A,
        (match lookup probs a with
          | some prob =>
              if (1e-6 : ℚ) < prob then
                some (newNode g (g.get_next_state st a) (some a))
              else none
          | none => none) =
          if decide ((1e-6 : ℚ) < (lookup probs a).getD 0) then
            some (newNode g (g.get_next_state st a) (some a))
          else none := by
      intro a
      cases hl : lookup probs a with
      | none =>
          have h0 : ¬ (1e-6 : ℚ) < (0 : ℚ) := by norm_num
          simp [h0]
      | some prob => by_cases hp : (1e-6 : ℚ) < prob <;> simp [hp]
    simp only [expand, hterm, Bool.false_eq_true, if_false]
    rw [if_neg (by simp), filterMap_eq_map_filter _ _ _ hg]
  · intro s2 a
    exact ⟨rfl, rfl, rfl, rfl, rfl⟩

/-- Witness for C6: the countdown game at state 1 (one legal action with
prior 1). -/
theorem expand_children_spec_witness :
    expand CountdownGame.game (.node 1 none ⟨0, []⟩ [((), 1)] []) =
      .ok (.node 1 none ⟨0, []⟩ [((), 1)]
        ((((CountdownGame.game).get_legal_actions 1).filter
            (fun a => decide ((1e-6 : ℚ) < (lookup [((), 1)] a).getD 0))).map
          (fun a => newNode CountdownGame.game
            ((CountdownGame.game).get_next_state 1 a) (some a)))) :=
  (expand_children_spec CountdownGame.game 1 none ⟨0, []⟩ [((), 1)] rfl).1

/-- C7: the three contract violations are fatal exactly where the spec
places them, and unreachable when their conditions are negated: (1)
expanding a terminal node fails with the terminal-expansion assertion;
(2) expanding a non-terminal node whose children are non-empty fails with
the re-expansion assertion; (3) on a non-terminal node with empty
children, expand succeeds; (4) a rollout step at a non-terminal state
whose policy weights do not sum to 1 within `1e-6` fails with the
weight-sum assertion; (5) when every non-terminal state's policy weights
do sum to 1 within `1e-6`, no rollout ever hits that assertion. -/
theorem fatal_contract_checks [DecidableEq A] (g : GameState S A)
    (pick : S → Nat) :
    (∀ (st : S) (pa : Option A) (d : NodeData) (probs : List (A × ℚ))
        (cs : List (Tree S A)), g.is_terminal st = true →
        expand g (.node st pa d probs cs) = .error .terminalExpansion) ∧
    (∀ (st : S) (pa : Option A) (d : NodeData) (probs : List (A × ℚ))
        (cs : List (Tree S A)), g.is_terminal st = false → cs ≠ [] →
        expand g (.node st pa d probs cs) = .error .reExpansion) ∧
    (∀ (st : S) (pa : Option A) (d : NodeData) (probs : List (A × ℚ)),
        g.is_terminal st = false →
        (expand g (.node st pa d probs [])).isOk = true) ∧
    (∀ (fuel : Nat) (s : S), g.is_terminal s = false →
        ¬ ratAbs ((g.get_policy s (g.get_legal_actions s)).sum - 1) <
            (1e-6 : ℚ) →
        rollout g pick (fuel + 1) s = .error .assertFail) ∧
    ((∀ s : S, g.is_terminal s = false →
        ratAbs ((g.get_policy s (g.get_legal_actions s)).sum - 1) <
          (1e-6 : ℚ)) →
      ∀ (fuel : Nat) (leaf s : S),
        rolloutValue g pick leaf fuel s ≠ .error .assertFail) := by
  refine ⟨?_, ?_, ?_, ?_, ?_⟩
  · intro st pa d probs cs h
    simp [expand, h]
  · intro st pa d probs cs h hne
    cases cs with
    | nil => exact absurd rfl hne
    | cons c rest => simp [expand, h]
  · intro st pa d probs h
    simp [expand, h, Except.isOk, Except.toBool]
  · intro fuel s h hbad
    simp [rollout, rolloutValue, h, hbad]
  · intro hgp fuel
    induction fuel with
    | zero =>
        intro leaf s
        simp [rolloutValue]
    | succ n ih =>
        intro leaf s
        cases hterm : g.is_terminal s with
        | true => simp [rolloutValue, hterm]
        | false =>
            have hgood := hgp s hterm
            simp only [rolloutValue, hterm, Bool.false_eq_true, if_false]
            rw [if_pos hgood]
            cases hidx : (g.get_legal_actions s)[pick s]? with
            | none => simp
            | some a => simpa using ih leaf (g.get_next_state s a)

theorem countdown_policy_good (s : Nat)
    (hs : (CountdownGame.game).is_terminal s = false) :
    ratAbs (((CountdownGame.game).get_policy s
        ((CountdownGame.game).get_legal_actions s)).sum - 1) <
      (1e-6 : ℚ) := by
  show ratAbs (([1] : List ℚ).sum - 1) < (1e-6 : ℚ)
  norm_num [ratAbs]

attribute [local semireducible] Rat.add Rat.sub Rat.mul Rat.inv
  Rat.ofScientific in
/-- Witness for C7: the countdown game (well-formed policy) and its
malformed-policy variant, at concrete nodes and states. -/
theorem fatal_contract_checks_witness :
    expand CountdownGame.game (.node 0 none ⟨0, []⟩ [] []) =
        .error .terminalExpansion ∧
      expand CountdownGame.game
          (.node 1 none ⟨0, []⟩ [((), 1)]
            [newNode CountdownGame.game 0 (some ())]) =
        .error .reExpansion ∧
      (expand CountdownGame.game (.node 1 none ⟨0, []⟩ [((), 1)] [])).isOk =
        true ∧
      rollout Examples.badPolicy (fun _ => 0) 1 1 = .error .assertFail ∧
      rolloutValue CountdownGame.game (fun _ => 0) 1 5 1 ≠
        .error .assertFail := by
  have h := fatal_contract_checks CountdownGame.game
    (fun _ => (0 : Nat))
  have hb := fatal_contract_checks Examples.badPolicy
    (fun _ => (0 : Nat))
  refine ⟨h.1 0 none ⟨0, []⟩ [] [] rfl,
    h.2.1 1 none ⟨0, []⟩ [((), 1)] [newNode CountdownGame.game 0 (some ())]
      rfl (by simp),
    h.2.2.1 1 none ⟨0, []⟩ [((), 1)] rfl,
    hb.2.2.2.1 0 1 rfl (by decide),
    h.2.2.2.2 countdown_policy_good 5 1 1⟩

theorem rolloutValue_eq_rolloutTerminal (g : GameState S A)
    (pick : S → Nat) (leaf : S) :
    ∀ (fuel : Nat) (s : S),
      rolloutValue g pick leaf fuel s =
        (rolloutTerminal g pick fuel s).map
          (fun ts =>
            if g.get_player_turn leaf = g.get_player_turn ts then
              g.get_result ts
            else -g.get_result ts) := by
  intro fuel
  induction fuel with
  | zero => intro s; rfl
  | succ n ih =>
      intro s
      cases hterm : g.is_terminal s with
      | true => simp [rolloutValue, rolloutTerminal, hterm, Except.map]
      | false =>
          simp only [rolloutValue, rolloutTerminal, hterm,
            Bool.false_eq_true, if_false]
          by_cases hw : ratAbs
              ((g.get_policy s (g.get_legal_actions s)).sum - 1) <
              (1e-6 : ℚ)
          · rw [if_pos hw, if_pos hw]
            cases hidx : (g.get_legal_actions s)[pick s]? with
            | none => rfl
            | some a => exact ih (g.get_next_state s a)
          · rw [if_neg hw, if_neg hw]
            rfl

/-- C8: the value returned by a successful rollout from a leaf state is
reported from the leaf's player-to-move perspective: it is the terminal
state's `get_result` when the terminal state's `get_player_turn` equals
the leaf's, and its negation otherwise — for every game, sampler and
fuel. -/
theorem rollout_leaf_perspective (g : GameState S A) (pick : S → Nat)
    (fuel : Nat) (leaf : S) :
    rollout g pick fuel leaf =
      (rolloutTerminal g pick fuel leaf).map
        (fun ts =>
          if g.get_player_turn leaf = g.get_player_turn ts then
            g.get_result ts
          else -g.get_result ts) :=
  rolloutValue_eq_rolloutTerminal g pick leaf fuel leaf

theorem modifyAt_length {α : Type} (f : α → α) :
    ∀ (i : Nat) (l : List α), (modifyAt f i l).length = l.length := by
  intro i
  induction i with
  | zero =>
      intro l
      cases l <;> simp [modifyAt]
  | succ n ih =>
      intro l
      cases l with
      | nil => simp [modifyAt]
      | cons a t => simp [modifyAt, ih t]

theorem getD_modifyAt_ne {α : Type} (f : α → α) :
    ∀ (i j : Nat) (l : List α) (d : α), i ≠ j →
      (modifyAt f i l).getD j d = l.getD j d := by
  intro i
  induction i with
  | zero =>
      intro j l d h
      cases l with
      | nil => simp [modifyAt]
      | cons a t =>
          cases j with
          | zero => exact absurd rfl h
          | succ m => simp [modifyAt]
  | succ n ih =>
      intro j l d h
      cases l with
      | nil => simp [modifyAt]
      | cons a t =>
          cases j with
          | zero => simp [modifyAt]
          | succ m =>
              simp only [modifyAt, List.getD_cons_succ]
              exact ih m t d (by omega)

theorem getD_modifyAt_self {α : Type} (f : α → α) :
    ∀ (i : Nat) (l : List α) (d : α), i < l.length →
      (modifyAt f i l).getD i d = f (l.getD i d) := by
  intro i
  induction i with
  | zero =>
      intro l d h
      cases l with
      | nil => simp at h
      | cons a t => simp [modifyAt]
  | succ n ih =>
      intro l d h
      cases l with
      | nil => simp at h
      | cons a t =>
          simp only [modifyAt, List.getD_cons_succ]
          exact ih t d (by simpa using h)

theorem getD_set_self {α : Type} (c d : α) :
    ∀ (j : Nat) (l : List α), j < l.length → (l.set j c).getD j d = c := by
  intro j
  induction j with
  | zero =>
      intro l h
      cases l with
      | nil => simp at h
      | cons a t => simp
  | succ n ih =>
      intro l h
      cases l with
      | nil => simp at h
      | cons a t => simpa using ih t (by simpa using h)

theorem getD_set_ne {α : Type} (c d : α) :
    ∀ (j j2 : Nat) (l : List α), j ≠ j2 →
      (l.set j c).getD j2 d = l.getD j2 d := by
  intro j
  induction j with
  | zero =>
      intro j2 l h
      cases l with
      | nil => simp
      | cons a t =>
          cases j2 with
          | zero => exact absurd rfl h
          | succ m => simp
  | succ n ih =>
      intro j2 l h
      cases l with
      | nil => simp
      | cons a t =>
          cases j2 with
          | zero => simp
          | succ m => simpa using ih m t (by omega)

theorem getD_mem {α : Type} :
    ∀ (i : Nat) (l : List α) (d : α), i < l.length → l.getD i d ∈ l := by
  intro i
  induction i with
  | zero =>
      intro l d h
      cases l with
      | nil => simp at h
      | cons a t => simp
  | succ n ih =>
      intro l d h
      cases l with
      | nil => simp at h
      | cons a t =>
          simp only [List.getD_cons_succ]
          exact List.mem_cons_of_mem a (ih t d (by simpa using h))

theorem mem_modifyAt {α : Type} (f : α → α) :
    ∀ (i : Nat) (l : List α) (x : α), x ∈ modifyAt f i l →
      x ∈ l ∨ ∃ y ∈ l, x = f y := by
  intro i
  induction i with
  | zero =>
      intro l x hx
      cases l with
      | nil => simp [modifyAt] at hx
      | cons a t =>
          simp only [modifyAt, List.mem_cons] at hx
          rcases hx with h | h
          · exact Or.inr ⟨a, by simp, h⟩
          · exact Or.inl (List.mem_cons_of_mem a h)
  | succ n ih =>
      intro l x hx
      cases l with
      | nil => simp [modifyAt] at hx
      | cons a t =>
          simp only [modifyAt, List.mem_cons] at hx
          rcases hx with h | h
          · exact Or.inl (by simp [h])
          · rcases ih t x h with h2 | ⟨y, hy, hxy⟩
            · exact Or.inl (List.mem_cons_of_mem a h2)
            · exact Or.inr ⟨y, List.mem_cons_of_mem a hy, hxy⟩

theorem ttt_shape_next (s : TTT.State) (a : Nat × Nat)
    (h1 : s.board.length = 3) (h2 : ∀ row ∈ s.board, row.length = 3) :
    (TTT.get_next_state s a).board.length = 3 ∧
      ∀ row ∈ (TTT.get_next_state s a).board, row.length = 3 := by
  constructor
  · simp [TTT.get_next_state, modifyAt_length, h1]
  · intro row hrow
    simp only [TTT.get_next_state] at hrow
    rcases mem_modifyAt _ _ _ _ hrow with h | ⟨y, hy, hxy⟩
    · exact h2 row h
    · rw [hxy]
      simpa using h2 y hy

theorem ttt_cell_write (s : TTT.State) (a : Nat × Nat)
    (h1 : s.board.length = 3) (h2 : ∀ row ∈ s.board, row.length = 3)
    (ha1 : a.1 < 3) (ha2 : a.2 < 3) :
    TTT.cell (TTT.get_next_state s a) a.1 a.2 = s.player := by
  obtain ⟨i, j⟩ := a
  simp only [TTT.get_next_state, TTT.cell]
  rw [getD_modifyAt_self _ i s.board [] (by rw [h1]; exact ha1)]
  have hrow : (s.board.getD i []).length = 3 :=
    h2 _ (getD_mem i s.board [] (by rw [h1]; exact ha1))
  exact getD_set_self s.player ' ' j _ (by rw [hrow]; exact ha2)

theorem ttt_cell_frame (s : TTT.State) (a x : Nat × Nat) (hne : x ≠ a) :
    TTT.cell (TTT.get_next_state s a) x.1 x.2 = TTT.cell s x.1 x.2 := by
  obtain ⟨i, j⟩ := a
  obtain ⟨i2, j2⟩ := x
  simp only [TTT.get_next_state, TTT.cell]
  by_cases hi : i = i2
  · subst hi
    have hj : j ≠ j2 := by
      intro h
      exact hne (by rw [h])
    by_cases hlt : i < s.board.length
    · rw [getD_modifyAt_self _ i s.board [] hlt]
      exact getD_set_ne s.player ' ' j j2 _ hj
    · have hge : s.board.length ≤ i := by omega
      have hnone : s.board.getD i [] = [] := by
        have : s.board[i]? = none := by
          rw [List.getElem?_eq_none_iff]
          exact hge
        simp [List.getD_eq_getElem?_getD, this]
      have hmod : (modifyAt (fun row => row.set j s.player) i
          s.board).getD i [] = [] := by
        have hlen : (modifyAt (fun row => row.set j s.player) i
            s.board).length ≤ i := by
          rw [modifyAt_length]
          exact hge
        have : (modifyAt (fun row => row.set j s.player) i
            s.board)[i]? = none := by
          rw [List.getElem?_eq_none_iff]
          exact hlen
        simp [List.getD_eq_getElem?_getD, this]
      rw [hmod, hnone]
  · rw [getD_modifyAt_ne _ i i2 s.board [] hi]

theorem ttt_line_result (s : TTT.State) (l : List (Nat × Nat))
    (hl : l ∈ TTT.lines) (hX : ∀ x ∈ l, TTT.cell s x.1 x.2 = 'X') :
    TTT.get_result s = -1 := by
  simp only [TTT.lines] at hl
  fin_cases hl <;>
    · have hc1 := hX _ (List.mem_cons_self _ _)
      have hc2 := hX _ (List.mem_cons_of_mem _ (List.mem_cons_self _ _))
      have hc3 := hX _ (List.mem_cons_of_mem _
        (List.mem_cons_of_mem _ (List.mem_cons_self _ _)))
      simp only at hc1 hc2 hc3
      simp [TTT.get_result, TTT.lineEq, hc1, hc2, hc3,
        show List.range 3 = [0, 1, 2] from rfl]

theorem ttt_legal_bounds :
    ∀ a ∈ TTT.get_legal_actions TTT.new, a.1 < 3 ∧ a.2 < 3 := by decide

/-- C9: the empty 3x3 board has exactly 9 legal actions; and for every
sequence of five placements X,O,X,O,X drawn from the empty board's legal
actions, pairwise distinct (which is what playing legally amounts to,
since marks are never erased), whose X placements (the 1st, 3rd and 5th)
cover a winning line, the resulting state has `get_result` equal to `-1`
(the opponent-relative sign convention) and `is_terminal` true. -/
theorem ttt_x_completes_line_scenario :
    (TTT.get_legal_actions TTT.new).length = 9 ∧
      ∀ a1 ∈ TTT.get_legal_actions TTT.new,
      ∀ a2 ∈ TTT.get_legal_actions TTT.new,
      ∀ a3 ∈ TTT.get_legal_actions TTT.new,
      ∀ a4 ∈ TTT.get_legal_actions TTT.new,
      ∀ a5 ∈ TTT.get_legal_actions TTT.new,
      (TTT.distinct5 a1 a2 a3 a4 a5 && TTT.completesLine a1 a3 a5) = true →
      TTT.get_result (TTT.playAll TTT.new [a1, a2, a3, a4, a5]) = -1 ∧
        TTT.is_terminal (TTT.playAll TTT.new [a1, a2, a3, a4, a5]) = true := by
  constructor
  · decide
  · intro a1 h1m a2 h2m a3 h3m a4 h4m a5 h5m hcond
    rw [Bool.and_eq_true] at hcond
    obtain ⟨hdist, hline⟩ := hcond
    have hd : a1 ≠ a2 ∧ a1 ≠ a3 ∧ a1 ≠ a4 ∧ a1 ≠ a5 ∧ a2 ≠ a3 ∧
        a2 ≠ a4 ∧ a2 ≠ a5 ∧ a3 ≠ a4 ∧ a3 ≠ a5 ∧ a4 ≠ a5 := by
      simpa [TTT.distinct5, Bool.and_eq_true, and_assoc] using hdist
    obtain ⟨d12, d13, d14, d15, d23, d24, d25, d34, d35, d45⟩ := hd
    have hb1 := ttt_legal_bounds a1 h1m
    have hb3 := ttt_legal_bounds a3 h3m
    have hb5 := ttt_legal_bounds a5 h5m
    have hs0a : (TTT.new).board.length = 3 := by decide
    have hs0b : ∀ row ∈ (TTT.new).board, row.length = 3 := by decide
    obtain ⟨hs1a, hs1b⟩ := ttt_shape_next TTT.new a1 hs0a hs0b
    obtain ⟨hs2a, hs2b⟩ := ttt_shape_next _ a2 hs1a hs1b
    obtain ⟨hs3a, hs3b⟩ := ttt_shape_next _ a3 hs2a hs2b
    obtain ⟨hs4a, hs4b⟩ := ttt_shape_next _ a4 hs3a hs3b
    have hplay : TTT.playAll TTT.new [a1, a2, a3, a4, a5] =
        TTT.get_next_state (TTT.get_next_state (TTT.get_next_state
          (TTT.get_next_state (TTT.get_next_state TTT.new a1) a2) a3) a4)
          a5 := rfl
    have hX1 : TTT.cell (TTT.playAll TTT.new [a1, a2, a3, a4, a5])
        a1.1 a1.2 = 'X' := by
      rw [hplay, ttt_cell_frame _ a5 a1 d15, ttt_cell_frame _ a4 a1 d14,
        ttt_cell_frame _ a3 a1 d13, ttt_cell_frame _ a2 a1 d12,
        ttt_cell_write TTT.new a1 hs0a hs0b hb1.1 hb1.2]
      rfl
    have hX3 : TTT.cell (TTT.playAll TTT.new [a1, a2, a3, a4, a5])
        a3.1 a3.2 = 'X' := by
      rw [hplay, ttt_cell_frame _ a5 a3 d35, ttt_cell_frame _ a4 a3 d34,
        ttt_cell_write _ a3 hs2a hs2b hb3.1 hb3.2]
      rfl
    have hX5 : TTT.cell (TTT.playAll TTT.new [a1, a2, a3, a4, a5])
        a5.1 a5.2 = 'X' := by
      rw [hplay, ttt_cell_write _ a5 hs4a hs4b hb5.1 hb5.2]
      rfl
    have hlx : ∃ l ∈ TTT.lines, ∀ x ∈ l, x = a1 ∨ x = a3 ∨ x = a5 := by
      simp only [TTT.completesLine, List.any_eq_true] at hline
      obtain ⟨l, hl, hall⟩ := hline
      refine ⟨l, hl, ?_⟩
      intro x hx
      rw [List.all_eq_true] at hall
      simpa [or_assoc] using hall x hx
    obtain ⟨l, hl, hsub⟩ := hlx
    have hXall : ∀ x ∈ l,
        TTT.cell (TTT.playAll TTT.new [a1, a2, a3, a4, a5]) x.1 x.2 =
          'X' := by
      intro x hx
      rcases hsub x hx with h | h | h <;> rw [h]
      exacts [hX1, hX3, hX5]
    have hres := ttt_line_result _ l hl hXall
    refine ⟨hres, ?_⟩
    simp [TTT.is_terminal, hres]

/-- Witness for C9: X fills the top row, O plays the first two cells of
the middle row. -/
theorem ttt_x_completes_line_scenario_witness :
    TTT.get_result
        (TTT.playAll TTT.new [(0, 0), (1, 0), (0, 1), (1, 1), (0, 2)]) =
      -1 ∧
      TTT.is_terminal
          (TTT.playAll TTT.new [(0, 0), (1, 0), (0, 1), (1, 1), (0, 2)]) =
        true :=
  ttt_x_completes_line_scenario.2 (0, 0) (by decide) (1, 0) (by decide)
    (0, 1) (by decide) (1, 1) (by decide) (0, 2) (by decide) (by decide)

/-- C10: in the Connect-4 collaborator, dropping into a full column (an
illegal action, `get_top_row` returns `none`) does not fail: the board is
returned unchanged and the player to move is flipped, silently passing
the turn. -/
theorem connect4_full_column_passes_turn (s : Connect4.State) (c : Nat)
    (h : Connect4.get_top_row s c = none) :
    (Connect4.get_next_state s c).board = s.board ∧
      (Connect4.get_next_state s c).player =
        (if s.player = 'X' then 'O' else 'X') := by
  simp [Connect4.get_next_state, h]

/-- Witness for C10: a board whose column 0 is full. -/
theorem connect4_full_column_passes_turn_witness :
    (Connect4.get_next_state Examples.fullColumn 0).board =
        Examples.fullColumn.board ∧
      (Connect4.get_next_state Examples.fullColumn 0).player =
        (if Examples.fullColumn.player = 'X' then 'O' else 'X') :=
  connect4_full_column_passes_turn Examples.fullColumn 0 (by decide)
